import Mathlib

/-!
Verification of the scoring and ranking engine of the S&P 500 stock ranking
application (source file optimized_stock_ranking_app.py).  Rational numbers
stand in for Python floats; the arithmetic of the script on the inputs used
here is exact, so the rational model agrees with the float semantics at every
statement below.  An Option value marks a non-finite entry: none plays the
role of the NaN produced by the degenerate min-max normalization of a column
whose maximum equals its minimum, and pandas propagates that NaN through
arithmetic, ranking and binning, which the Option combinators mirror.
-/

namespace SRA

/-- One row of the raw DataFrame, as assembled from the fetched fields in
lines 39-57 of the source (columns Ticker, Name, Sector, the six numeric
ratios, and Description). -/
structure StockRow where
  ticker : String
  name : String
  sector : String
  pe : ℚ
  pb : ℚ
  ps : ℚ
  roe : ℚ
  roa : ℚ
  dte : ℚ
  description : String
  deriving DecidableEq

/-- The provider dictionary consumed by fetch_data (source lines 7-23): each
key is either present with a value or absent. -/
structure YFInfo where
  longName : Option String
  sector : Option String
  industry : Option String
  marketCap : Option ℚ
  trailingPE : Option ℚ
  priceToBook : Option ℚ
  priceToSalesTrailing12Months : Option ℚ
  returnOnEquity : Option ℚ
  returnOnAssets : Option ℚ
  debtToEquity : Option ℚ
  longBusinessSummary : Option String
  deriving DecidableEq

/-- The record returned by fetch_data: every field already defaulted, the
numeric ratios with the numeric default 0 used by info.get(key, 0). -/
structure FetchedData where
  longName : String
  sector : String
  industry : String
  marketCap : ℚ
  trailingPE : ℚ
  priceToBook : ℚ
  priceToSalesTrailing12Months : ℚ
  returnOnEquity : ℚ
  returnOnAssets : ℚ
  debtToEquity : ℚ
  longBusinessSummary : String
  deriving DecidableEq

/-- Embedding of fetch_data (source lines 7-23): info.get(key, default) is
Option.getD of the corresponding field. -/
def fetch_data (info : YFInfo) : FetchedData :=
  { longName := info.longName.getD "N/A"
    sector := info.sector.getD "N/A"
    industry := info.industry.getD "N/A"
    marketCap := info.marketCap.getD 0
    trailingPE := info.trailingPE.getD 0
    priceToBook := info.priceToBook.getD 0
    priceToSalesTrailing12Months := info.priceToSalesTrailing12Months.getD 0
    returnOnEquity := info.returnOnEquity.getD 0
    returnOnAssets := info.returnOnAssets.getD 0
    debtToEquity := info.debtToEquity.getD 0
    longBusinessSummary := info.longBusinessSummary.getD "No description available" }

/-- Building one DataFrame row from a fetched record (source lines 39-57). -/
def rowOfFetched (tk : String) (fd : FetchedData) : StockRow :=
  { ticker := tk
    name := fd.longName
    sector := fd.sector
    pe := fd.trailingPE
    pb := fd.priceToBook
    ps := fd.priceToSalesTrailing12Months
    roe := fd.returnOnEquity
    roa := fd.returnOnAssets
    dte := fd.debtToEquity
    description := fd.longBusinessSummary }

/-- Column minimum, the Series.min() of a column (0 on the empty column,
where pandas would give NaN; the empty case is never consulted by any
statement below because normalization of an empty batch produces no rows). -/
def colMin : List ℚ → ℚ
  | [] => 0
  | x :: t => t.foldl min x

/-- Column maximum, the Series.max() of a column. -/
def colMax : List ℚ → ℚ
  | [] => 0
  | x :: t => t.foldl max x

/-- One entry of the vectorized expression (v - min) / (max - min) from
source lines 60-65.  When max = min every column entry equals the common
value, so the entry is 0/0 = NaN, modeled as none. -/
def normVal (m M v : ℚ) : Option ℚ :=
  if M = m then none else some ((v - m) / (M - m))

/-- Normalized value of one metric of one row, relative to the whole batch:
the shallow embedding of lines 60-65 applied to the column selected by
col. -/
def normMetric (col : StockRow → ℚ) (batch : List StockRow) (r : StockRow) : Option ℚ :=
  normVal (colMin (batch.map col)) (colMax (batch.map col)) (col r)

/-- Addition with NaN propagation, as in pandas elementwise +. -/
def oAdd : Option ℚ → Option ℚ → Option ℚ
  | some a, some b => some (a + b)
  | _, _ => none

/-- Scalar multiplication with NaN propagation, as in pandas scalar *. -/
def oSMul (c : ℚ) : Option ℚ → Option ℚ
  | some a => some (c * a)
  | none => none

/-- Value Score = 0.5 * normalized P/E + 0.5 * normalized P/B (line 68). -/
def valueScore (batch : List StockRow) (r : StockRow) : Option ℚ :=
  oAdd (oSMul (1/2) (normMetric (fun x => x.pe) batch r))
       (oSMul (1/2) (normMetric (fun x => x.pb) batch r))

/-- Quality Score = 0.5 * normalized ROE + 0.5 * normalized ROA (line 69). -/
def qualityScore (batch : List StockRow) (r : StockRow) : Option ℚ :=
  oAdd (oSMul (1/2) (normMetric (fun x => x.roe) batch r))
       (oSMul (1/2) (normMetric (fun x => x.roa) batch r))

/-- Momentum Score = normalized P/S (line 70). -/
def momentumScore (batch : List StockRow) (r : StockRow) : Option ℚ :=
  normMetric (fun x => x.ps) batch r

/-- Volatility Score = normalized Debt-to-Equity (line 71). -/
def volatilityScore (batch : List StockRow) (r : StockRow) : Option ℚ :=
  normMetric (fun x => x.dte) batch r

/-- Composite Score = 0.3 * Value + 0.3 * Quality + 0.3 * Momentum
+ 0.1 * Volatility (line 74), with Python left-to-right addition. -/
def compositeScore (batch : List StockRow) (r : StockRow) : Option ℚ :=
  oAdd (oAdd (oAdd (oSMul (3/10) (valueScore batch r))
                   (oSMul (3/10) (qualityScore batch r)))
             (oSMul (3/10) (momentumScore batch r)))
       (oSMul (1/10) (volatilityScore batch r))

/-- The composite value as a plain rational function of the six normalized
metrics, in exactly the shape produced by lines 68-74. -/
def compositeOf (a b c d e f : ℚ) : ℚ :=
  3/10 * (1/2 * a + 1/2 * b) + 3/10 * (1/2 * c + 1/2 * d) + 3/10 * e + 1/10 * f

/-- Number of column entries strictly greater than x. -/
def cntGt (l : List ℚ) (x : ℚ) : ℕ :=
  (l.filter (fun y => decide (x < y))).length

/-- Number of column entries strictly less than x. -/
def cntLt (l : List ℚ) (x : ℚ) : ℕ :=
  (l.filter (fun y => decide (y < x))).length

/-- Number of column entries equal to x. -/
def cntEq (l : List ℚ) (x : ℚ) : ℕ :=
  (l.filter (fun y => decide (y = x))).length

/-- The defined (non-NaN) entries of a column. -/
def definedVals (l : List (Option ℚ)) : List ℚ :=
  l.filterMap id

/-- Series.rank(ascending=False).astype(int) of one defined entry
(lines 77-81): pandas assigns the average rank of a tie group, here
cntGt + (cntEq + 1) / 2 over the rationals, and the int cast truncates,
which for this positive value is exactly natural division by 2. -/
def rankDescInt (l : List ℚ) (x : ℚ) : ℕ :=
  cntGt l x + (cntEq l x + 1) / 2

/-- Rank column entry for a possibly-NaN score: pandas ranks only the
defined entries and leaves NaN as NaN. -/
def colRankInt (l : List (Option ℚ)) : Option ℚ → Option ℕ
  | none => none
  | some x => some (rankDescInt (definedVals l) x)

/-- Series.rank(pct=True) of one defined entry (line 84): ascending average
rank divided by the number of defined entries, exactly in ℚ. -/
def pctRankAsc (l : List ℚ) (x : ℚ) : ℚ :=
  ((cntLt l x : ℚ) + ((cntEq l x : ℚ) + 1) / 2) / (l.length : ℚ)

/-- Percentile-rank column entry for a possibly-NaN score. -/
def colPctRank (l : List (Option ℚ)) : Option ℚ → Option ℚ
  | none => none
  | some x => some (pctRankAsc (definedVals l) x)

/-- The nine interior bin edges of np.linspace(0, 1, 11) (line 85). -/
def bucketEdges : List ℚ :=
  [1/10, 2/10, 3/10, 4/10, 5/10, 6/10, 7/10, 8/10, 9/10]

/-- The decile labels of lines 85-88, worst first. -/
def bucketLabels : List String :=
  ["Bottom 10%", "Bottom 20%", "Bottom 30%", "Bottom 40%", "Bottom 50%",
   "Top 50%", "Top 40%", "Top 30%", "Top 20%", "Top 10%"]

/-- Number of interior edges at or above x. -/
def geCount (x : ℚ) : ℕ :=
  (bucketEdges.filter (fun e => decide (x ≤ e))).length

/-- Index of the pd.cut bin of x: pd.cut with edges [0, 1/10, ..., 1] uses
right-closed intervals, so x in (k/10, (k+1)/10] gets index k, which equals
9 minus the number of interior edges at or above x. -/
def bucketIdx (x : ℚ) : ℕ :=
  9 - geCount x

/-- pd.cut of one value over the bins of line 85: values outside (0, 1] get
NaN (right=True, include_lowest=False), values inside get the label of
their right-closed bin. -/
def bucketLabel (x : ℚ) : Option String :=
  if 0 < x ∧ x ≤ 1 then bucketLabels.get? (bucketIdx x) else none

/-- The Value Score column of the batch. -/
def valueCol (batch : List StockRow) : List (Option ℚ) :=
  batch.map (valueScore batch)

/-- The Quality Score column of the batch. -/
def qualityCol (batch : List StockRow) : List (Option ℚ) :=
  batch.map (qualityScore batch)

/-- The Momentum Score column of the batch. -/
def momentumCol (batch : List StockRow) : List (Option ℚ) :=
  batch.map (momentumScore batch)

/-- The Volatility Score column of the batch. -/
def volatilityCol (batch : List StockRow) : List (Option ℚ) :=
  batch.map (volatilityScore batch)

/-- The Composite Score column of the batch. -/
def compositeCol (batch : List StockRow) : List (Option ℚ) :=
  batch.map (compositeScore batch)

/-- Rank Percentage of one row (lines 84-88): pd.cut applied to the
percentile rank of its composite score. -/
def rankPercentageOf (batch : List StockRow) (r : StockRow) : Option String :=
  match colPctRank (compositeCol batch) (compositeScore batch r) with
  | none => none
  | some p => bucketLabel p

/-- One row of the final displayed DataFrame (line 91): the columns kept
after the rank computations. -/
structure RankedRow where
  ticker : String
  name : String
  sector : String
  compositeRank : Option ℕ
  valueRank : Option ℕ
  qualityRank : Option ℕ
  momentumRank : Option ℕ
  volatilityRank : Option ℕ
  rankPercentage : Option String
  description : String
  deriving DecidableEq

/-- The full ranking pipeline of lines 59-94: each input row joined with its
five integer ranks and its percentile bucket, all computed over the whole
batch. -/
def rankedRows (batch : List StockRow) : List RankedRow :=
  batch.map fun r =>
    { ticker := r.ticker
      name := r.name
      sector := r.sector
      compositeRank := colRankInt (compositeCol batch) (compositeScore batch r)
      valueRank := colRankInt (valueCol batch) (valueScore batch r)
      qualityRank := colRankInt (qualityCol batch) (qualityScore batch r)
      momentumRank := colRankInt (momentumCol batch) (momentumScore batch r)
      volatilityRank := colRankInt (volatilityCol batch) (volatilityScore batch r)
      rankPercentage := rankPercentageOf batch r
      description := r.description }

/-- The sector filter of lines 113-116, applied after all ranks are
computed: All keeps every row, otherwise rows are kept by exact
case-sensitive string equality on the Sector column. -/
def filterSector (s : String) (rows : List RankedRow) : List RankedRow :=
  if s = "All" then rows else rows.filter (fun row => decide (row.sector = s))

/-- Names for the six raw metric columns. -/
inductive Metric
  | pe
  | pb
  | ps
  | roe
  | roa
  | dte
  deriving DecidableEq

/-- The accessor of one raw metric. -/
def metricVal : Metric → StockRow → ℚ
  | .pe => fun r => r.pe
  | .pb => fun r => r.pb
  | .ps => fun r => r.ps
  | .roe => fun r => r.roe
  | .roa => fun r => r.roa
  | .dte => fun r => r.dte

/-- Replacing one raw metric of a row, leaving every other field alone. -/
def setMetric : Metric → ℚ → StockRow → StockRow
  | .pe => fun v r => { r with pe := v }
  | .pb => fun v r => { r with pb := v }
  | .ps => fun v r => { r with ps := v }
  | .roe => fun v r => { r with roe := v }
  | .roa => fun v r => { r with roa := v }
  | .dte => fun v r => { r with dte := v }

/-- A row with every raw metric equal to v, for concrete test batches. -/
def mkRow (tk sec : String) (v : ℚ) : StockRow :=
  { ticker := tk
    name := tk
    sector := sec
    pe := v
    pb := v
    ps := v
    roe := v
    roa := v
    dte := v
    description := "d" }

/-- A provider dictionary with every key absent. -/
def yfMissingAll : YFInfo :=
  { longName := none
    sector := none
    industry := none
    marketCap := none
    trailingPE := none
    priceToBook := none
    priceToSalesTrailing12Months := none
    returnOnEquity := none
    returnOnAssets := none
    debtToEquity := none
    longBusinessSummary := none }

/-- The row produced for an issuer whose provider dictionary is empty. -/
def rowMissing : StockRow :=
  rowOfFetched "MISS" (fetch_data yfMissingAll)

/-- Two-issuer batch pairing the all-missing issuer with a normal one. -/
def c1batch : List StockRow :=
  [rowMissing, mkRow "OTH" "Tech" 10]

/-- Three-issuer batch with a two-way tie at the top of every score. -/
def c2batch : List StockRow :=
  [mkRow "A" "Tech" 1, mkRow "B" "Tech" 1, mkRow "C" "Tech" 0]

/-- Two-issuer batch in which every metric column is constant. -/
def c3batch : List StockRow :=
  [mkRow "A" "Tech" 5, mkRow "B" "Tech" 5]

/-- Two-issuer batch with distinct scores; the worse issuer's percentile
rank is exactly 1/2, a bin edge. -/
def c4batch : List StockRow :=
  [mkRow "A" "Tech" 0, mkRow "B" "Tech" 4]

/-- Three-issuer batch with a two-way tie at the top composite score. -/
def c9batch : List StockRow :=
  [mkRow "X" "Fin" 2, mkRow "Y" "Fin" 2, mkRow "Z" "Fin" 0]

/-- Concrete two-sector batch for the sector-filter claim. -/
def w8batch : List StockRow :=
  [mkRow "A" "Tech" 0, mkRow "B" "Fin" 4]

/-- The ranked row the pipeline produces for issuer A of w8batch. -/
def w8row : RankedRow :=
  { ticker := "A"
    name := "A"
    sector := "Tech"
    compositeRank := some 2
    valueRank := some 2
    qualityRank := some 2
    momentumRank := some 2
    volatilityRank := some 2
    rankPercentage := some "Bottom 50%"
    description := "d" }

/-- Concrete batch for the normalization witness. -/
def w5batch : List StockRow :=
  [mkRow "V" "U" 0, mkRow "W" "U" 4]

/-- Concrete batch for the composite-weights witness. -/
def w6batch : List StockRow :=
  [mkRow "M" "U" 0, mkRow "N" "U" 3]

/-- Concrete batch for the unique-top-bucket witness. -/
def w9batch : List StockRow :=
  [mkRow "G" "U" 1, mkRow "H" "U" 0]

/-- Concrete batch for the percentile-formula witness. -/
def w4batch : List StockRow :=
  [mkRow "P" "U" 0, mkRow "Q" "U" 7]

@[simp]
theorem oAdd_some_some (a b : ℚ) : oAdd (some a) (some b) = some (a + b) := rfl

@[simp]
theorem oAdd_none_left (y : Option ℚ) : oAdd none y = none := by
  cases y <;> rfl

@[simp]
theorem oAdd_none_right (x : Option ℚ) : oAdd x none = none := by
  cases x <;> rfl

@[simp]
theorem oSMul_some (c a : ℚ) : oSMul c (some a) = some (c * a) := rfl

@[simp]
theorem oSMul_none (c : ℚ) : oSMul c none = none := rfl

theorem foldl_min_min (a b : ℚ) (l : List ℚ) :
    l.foldl min (min a b) = min a (l.foldl min b) := by
  induction l generalizing b with
  | nil => rfl
  | cons c t ih =>
    simp only [List.foldl_cons]
    rw [min_assoc]
    exact ih (min b c)

theorem foldl_max_max (a b : ℚ) (l : List ℚ) :
    l.foldl max (max a b) = max a (l.foldl max b) := by
  induction l generalizing b with
  | nil => rfl
  | cons c t ih =>
    simp only [List.foldl_cons]
    rw [max_assoc]
    exact ih (max b c)

theorem foldl_min_bounds (t : List ℚ) (a : ℚ) :
    t.foldl min a ≤ a ∧ ∀ x ∈ t, t.foldl min a ≤ x := by
  induction t generalizing a with
  | nil => exact ⟨le_refl a, by intro x hx; cases hx⟩
  | cons b t ih =>
    simp only [List.foldl_cons]
    obtain ⟨h1, h2⟩ := ih (min a b)
    refine ⟨le_trans h1 (min_le_left a b), ?_⟩
    intro x hx
    rcases List.mem_cons.mp hx with h3 | h3
    · rw [h3]; exact le_trans h1 (min_le_right a b)
    · exact h2 x h3

theorem foldl_max_bounds (t : List ℚ) (a : ℚ) :
    a ≤ t.foldl max a ∧ ∀ x ∈ t, x ≤ t.foldl max a := by
  induction t generalizing a with
  | nil => exact ⟨le_refl a, by intro x hx; cases hx⟩
  | cons b t ih =>
    simp only [List.foldl_cons]
    obtain ⟨h1, h2⟩ := ih (max a b)
    refine ⟨le_trans (le_max_left a b) h1, ?_⟩
    intro x hx
    rcases List.mem_cons.mp hx with h3 | h3
    · rw [h3]; exact le_trans (le_max_right a b) h1
    · exact h2 x h3

theorem colMin_le (l : List ℚ) (x : ℚ) (hx : x ∈ l) : colMin l ≤ x := by
  cases l with
  | nil => cases hx
  | cons a t =>
    rcases List.mem_cons.mp hx with h | h
    · exact h ▸ (foldl_min_bounds t a).1
    · exact (foldl_min_bounds t a).2 x h

theorem le_colMax (l : List ℚ) (x : ℚ) (hx : x ∈ l) : x ≤ colMax l := by
  cases l with
  | nil => cases hx
  | cons a t =>
    rcases List.mem_cons.mp hx with h | h
    · exact h ▸ (foldl_max_bounds t a).1
    · exact (foldl_max_bounds t a).2 x h

theorem foldl_min_mem (t : List ℚ) (a : ℚ) : t.foldl min a ∈ a :: t := by
  induction t generalizing a with
  | nil => exact List.mem_singleton.mpr rfl
  | cons b t ih =>
    simp only [List.foldl_cons]
    rcases List.mem_cons.mp (ih (min a b)) with h1 | h1
    · rcases min_choice a b with h2 | h2
      · rw [h1, h2]; exact List.mem_cons_self _ _
      · rw [h1, h2]; exact List.mem_cons_of_mem _ (List.mem_cons_self _ _)
    · exact List.mem_cons_of_mem _ (List.mem_cons_of_mem _ h1)

theorem foldl_max_mem (t : List ℚ) (a : ℚ) : t.foldl max a ∈ a :: t := by
  induction t generalizing a with
  | nil => exact List.mem_singleton.mpr rfl
  | cons b t ih =>
    simp only [List.foldl_cons]
    rcases List.mem_cons.mp (ih (max a b)) with h1 | h1
    · rcases max_choice a b with h2 | h2
      · rw [h1, h2]; exact List.mem_cons_self _ _
      · rw [h1, h2]; exact List.mem_cons_of_mem _ (List.mem_cons_self _ _)
    · exact List.mem_cons_of_mem _ (List.mem_cons_of_mem _ h1)

theorem colMin_mem (l : List ℚ) (h : l ≠ []) : colMin l ∈ l := by
  cases l with
  | nil => exact absurd rfl h
  | cons a t => exact foldl_min_mem t a

theorem colMax_mem (l : List ℚ) (h : l ≠ []) : colMax l ∈ l := by
  cases l with
  | nil => exact absurd rfl h
  | cons a t => exact foldl_max_mem t a

theorem colMin_le_colMax (l : List ℚ) (h : l ≠ []) : colMin l ≤ colMax l :=
  le_colMax l _ (colMin_mem l h)

theorem colMin_insert (P Q : List ℚ) (v : ℚ) (h : P ++ Q ≠ []) :
    colMin (P ++ v :: Q) = min v (colMin (P ++ Q)) := by
  have hv : v ∈ P ++ v :: Q := List.mem_append.mpr (Or.inr (List.mem_cons_self _ _))
  have hmemPQ : ∀ x ∈ P ++ Q, x ∈ P ++ v :: Q := by
    intro x hx
    rcases List.mem_append.mp hx with h1 | h1
    · exact List.mem_append.mpr (Or.inl h1)
    · exact List.mem_append.mpr (Or.inr (List.mem_cons_of_mem _ h1))
  apply le_antisymm
  · exact le_min (colMin_le _ _ hv) (colMin_le _ _ (hmemPQ _ (colMin_mem _ h)))
  · have hne : P ++ v :: Q ≠ [] := by simp
    rcases List.mem_append.mp (colMin_mem (P ++ v :: Q) hne) with h1 | h1
    · exact le_trans (min_le_right _ _) (colMin_le _ _ (List.mem_append.mpr (Or.inl h1)))
    · rcases List.mem_cons.mp h1 with h2 | h2
      · rw [h2]; exact min_le_left _ _
      · exact le_trans (min_le_right _ _) (colMin_le _ _ (List.mem_append.mpr (Or.inr h2)))

theorem colMax_insert (P Q : List ℚ) (v : ℚ) (h : P ++ Q ≠ []) :
    colMax (P ++ v :: Q) = max v (colMax (P ++ Q)) := by
  have hv : v ∈ P ++ v :: Q := List.mem_append.mpr (Or.inr (List.mem_cons_self _ _))
  have hmemPQ : ∀ x ∈ P ++ Q, x ∈ P ++ v :: Q := by
    intro x hx
    rcases List.mem_append.mp hx with h1 | h1
    · exact List.mem_append.mpr (Or.inl h1)
    · exact List.mem_append.mpr (Or.inr (List.mem_cons_of_mem _ h1))
  apply le_antisymm
  · have hne : P ++ v :: Q ≠ [] := by simp
    rcases List.mem_append.mp (colMax_mem (P ++ v :: Q) hne) with h1 | h1
    · exact le_trans (le_colMax _ _ (List.mem_append.mpr (Or.inl h1))) (le_max_right _ _)
    · rcases List.mem_cons.mp h1 with h2 | h2
      · rw [h2]; exact le_max_left _ _
      · exact le_trans (le_colMax _ _ (List.mem_append.mpr (Or.inr h2))) (le_max_right _ _)
  · exact max_le (le_colMax _ _ hv) (le_colMax _ _ (hmemPQ _ (colMax_mem _ h)))

theorem normVal_eq_some (m M v a : ℚ) :
    normVal m M v = some a ↔ M ≠ m ∧ a = (v - m) / (M - m) := by
  unfold normVal
  split_ifs with h <;> simp [h, eq_comm]

theorem normVal_insert_mono (P Q : List ℚ) (v1 v2 a1 a2 : ℚ) (hv : v1 ≤ v2)
    (h1 : normVal (colMin (P ++ v1 :: Q)) (colMax (P ++ v1 :: Q)) v1 = some a1)
    (h2 : normVal (colMin (P ++ v2 :: Q)) (colMax (P ++ v2 :: Q)) v2 = some a2) :
    a1 ≤ a2 := by
  rw [normVal_eq_some] at h1 h2
  obtain ⟨hne1, ha1⟩ := h1
  obtain ⟨hne2, ha2⟩ := h2
  have hv1mem : v1 ∈ P ++ v1 :: Q := List.mem_append.mpr (Or.inr (List.mem_cons_self _ _))
  have hv2mem : v2 ∈ P ++ v2 :: Q := List.mem_append.mpr (Or.inr (List.mem_cons_self _ _))
  have hm1 : colMin (P ++ v1 :: Q) ≤ v1 := colMin_le _ _ hv1mem
  have hM1 : v1 ≤ colMax (P ++ v1 :: Q) := le_colMax _ _ hv1mem
  have hm2 : colMin (P ++ v2 :: Q) ≤ v2 := colMin_le _ _ hv2mem
  have hM2 : v2 ≤ colMax (P ++ v2 :: Q) := le_colMax _ _ hv2mem
  have hpos1 : 0 < colMax (P ++ v1 :: Q) - colMin (P ++ v1 :: Q) := by
    rcases lt_or_eq_of_le (le_trans hm1 hM1) with h | h
    · linarith
    · exact absurd h.symm hne1
  have hpos2 : 0 < colMax (P ++ v2 :: Q) - colMin (P ++ v2 :: Q) := by
    rcases lt_or_eq_of_le (le_trans hm2 hM2) with h | h
    · linarith
    · exact absurd h.symm hne2
  have ha1le : a1 ≤ 1 := by
    rw [ha1, div_le_one hpos1]
    linarith
  have ha2ge : 0 ≤ a2 := by
    rw [ha2]
    apply div_nonneg _ (le_of_lt hpos2)
    linarith
  by_cases hPQ : P ++ Q = []
  · exfalso
    have hP : P = [] := (List.append_eq_nil.mp hPQ).1
    have hQ : Q = [] := (List.append_eq_nil.mp hPQ).2
    subst hP
    subst hQ
    simp [colMin, colMax] at hne1
  · have homM : colMin (P ++ Q) ≤ colMax (P ++ Q) := colMin_le_colMax _ hPQ
    have hmin1 := colMin_insert P Q v1 hPQ
    have hmax1 := colMax_insert P Q v1 hPQ
    have hmin2 := colMin_insert P Q v2 hPQ
    have hmax2 := colMax_insert P Q v2 hPQ
    by_cases hA : colMax (P ++ Q) ≤ v2
    · have hm2e : colMin (P ++ v2 :: Q) = colMin (P ++ Q) := by
        rw [hmin2]; exact min_eq_right (le_trans homM hA)
      have hM2e : colMax (P ++ v2 :: Q) = v2 := by
        rw [hmax2]; exact max_eq_left hA
      have ha2v : a2 = 1 := by
        rw [hm2e, hM2e] at ha2 hpos2
        rw [ha2]
        exact div_self (ne_of_gt hpos2)
      linarith
    · push_neg at hA
      by_cases hB : v1 ≤ colMin (P ++ Q)
      · have hm1e : colMin (P ++ v1 :: Q) = v1 := by
          rw [hmin1]; exact min_eq_left hB
        have ha1v : a1 = 0 := by
          rw [hm1e] at ha1
          rw [ha1]
          simp
        linarith
      · push_neg at hB
        have hm1e : colMin (P ++ v1 :: Q) = colMin (P ++ Q) := by
          rw [hmin1]; exact min_eq_right (le_of_lt hB)
        have hm2e : colMin (P ++ v2 :: Q) = colMin (P ++ Q) := by
          rw [hmin2]; exact min_eq_right (le_of_lt (lt_of_lt_of_le hB hv))
        have hM1e : colMax (P ++ v1 :: Q) = colMax (P ++ Q) := by
          rw [hmax1]; exact max_eq_right (le_of_lt (lt_of_le_of_lt hv hA))
        have hM2e : colMax (P ++ v2 :: Q) = colMax (P ++ Q) := by
          rw [hmax2]; exact max_eq_right (le_of_lt hA)
        rw [hm1e, hM1e] at ha1 hpos1
        rw [hm2e, hM2e] at ha2
        rw [ha1, ha2]
        exact (div_le_div_iff_of_pos_right hpos1).mpr (by linarith)

theorem normMetric_insert_congr (colf : StockRow → ℚ) (pre post : List StockRow)
    (r1 r2 : StockRow) (hcol : colf r1 = colf r2) :
    normMetric colf (pre ++ r1 :: post) r1 = normMetric colf (pre ++ r2 :: post) r2 := by
  unfold normMetric
  rw [List.map_append, List.map_cons, List.map_append, List.map_cons, hcol]

theorem normMetric_insert_mono (colf : StockRow → ℚ) (pre post : List StockRow)
    (r1 r2 : StockRow) (a1 a2 : ℚ) (hc : colf r1 ≤ colf r2)
    (h1 : normMetric colf (pre ++ r1 :: post) r1 = some a1)
    (h2 : normMetric colf (pre ++ r2 :: post) r2 = some a2) :
    a1 ≤ a2 := by
  unfold normMetric at h1 h2
  rw [List.map_append, List.map_cons] at h1 h2
  exact normVal_insert_mono (pre.map colf) (post.map colf) _ _ _ _ hc h1 h2

theorem cntGt_cons (a x : ℚ) (l : List ℚ) :
    cntGt (a :: l) x = (if x < a then 1 else 0) + cntGt l x := by
  by_cases h : x < a
  · simp [cntGt, List.filter_cons, h, Nat.add_comm]
  · simp [cntGt, List.filter_cons, h]

theorem cntLt_cons (a x : ℚ) (l : List ℚ) :
    cntLt (a :: l) x = (if a < x then 1 else 0) + cntLt l x := by
  by_cases h : a < x
  · simp [cntLt, List.filter_cons, h, Nat.add_comm]
  · simp [cntLt, List.filter_cons, h]

theorem cntEq_cons (a x : ℚ) (l : List ℚ) :
    cntEq (a :: l) x = (if a = x then 1 else 0) + cntEq l x := by
  by_cases h : a = x
  · simp [cntEq, List.filter_cons, h, Nat.add_comm]
  · simp [cntEq, List.filter_cons, h]

theorem cnt_partition (l : List ℚ) (x : ℚ) :
    cntLt l x + cntEq l x + cntGt l x = l.length := by
  induction l with
  | nil => rfl
  | cons a t ih =>
    rw [cntLt_cons, cntEq_cons, cntGt_cons]
    rcases lt_trichotomy a x with h | h | h
    · rw [if_pos h, if_neg (ne_of_lt h), if_neg (lt_asymm h)]
      simp only [List.length_cons]
      omega
    · rw [if_neg (by rw [h]; exact lt_irrefl x), if_pos h,
        if_neg (by rw [h]; exact lt_irrefl x)]
      simp only [List.length_cons]
      omega
    · rw [if_neg (lt_asymm h), if_neg (ne_of_gt h), if_pos h]
      simp only [List.length_cons]
      omega

theorem cntEq_pos (l : List ℚ) (x : ℚ) (hx : x ∈ l) : 1 ≤ cntEq l x := by
  have hmem : x ∈ l.filter (fun y => decide (y = x)) :=
    List.mem_filter.mpr ⟨hx, by simp⟩
  have h := List.length_pos.mpr (List.ne_nil_of_mem hmem)
  exact h

theorem cntEq_eq_zero (l : List ℚ) (x : ℚ) (hx : x ∉ l) : cntEq l x = 0 := by
  induction l with
  | nil => rfl
  | cons a t ih =>
    rw [cntEq_cons]
    have hax : ¬(a = x) := fun h => hx (by rw [← h]; exact List.mem_cons_self _ _)
    rw [if_neg hax]
    have hxt : x ∉ t := fun h => hx (List.mem_cons_of_mem _ h)
    simp [ih hxt]

theorem cntEq_nodup (l : List ℚ) (x : ℚ) (hnd : l.Nodup) (hx : x ∈ l) :
    cntEq l x = 1 := by
  induction l with
  | nil => cases hx
  | cons a t ih =>
    rw [cntEq_cons]
    rcases List.mem_cons.mp hx with h | h
    · rw [if_pos h.symm]
      have hat : a ∉ t := (List.nodup_cons.mp hnd).1
      have hxt : x ∉ t := by rw [h]; exact hat
      simp [cntEq_eq_zero t x hxt]
    · have hax : ¬(a = x) := by
        intro he
        exact (List.nodup_cons.mp hnd).1 (by rw [he]; exact h)
      rw [if_neg hax]
      simp [ih (List.nodup_cons.mp hnd).2 h]

theorem cntGt_add_cntEq_le (l : List ℚ) (x y : ℚ) (hxy : x < y) :
    cntGt l y + cntEq l y ≤ cntGt l x := by
  induction l with
  | nil => simp [cntGt, cntEq]
  | cons a t ih =>
    rw [cntGt_cons, cntEq_cons, cntGt_cons]
    have hstep : (if y < a then 1 else 0) + (if a = y then 1 else 0)
        ≤ (if x < a then 1 else 0) := by
      by_cases h1 : y < a
      · rw [if_pos h1, if_neg (ne_of_gt h1), if_pos (lt_trans hxy h1)]
      · by_cases h2 : a = y
        · rw [if_neg h1, if_pos h2, if_pos (by rw [h2]; exact hxy)]
        · rw [if_neg h1, if_neg h2]
          simp
    omega

theorem cntLt_add_cntEq_le (l : List ℚ) (x y : ℚ) (hxy : x < y) :
    cntLt l x + cntEq l x ≤ cntLt l y := by
  induction l with
  | nil => simp [cntLt, cntEq]
  | cons a t ih =>
    rw [cntLt_cons, cntEq_cons, cntLt_cons]
    have hstep : (if a < x then 1 else 0) + (if a = x then 1 else 0)
        ≤ (if a < y then 1 else 0) := by
      by_cases h1 : a < x
      · rw [if_pos h1, if_neg (ne_of_lt h1), if_pos (lt_trans h1 hxy)]
      · by_cases h2 : a = x
        · rw [if_neg h1, if_pos h2, if_pos (by rw [h2]; exact hxy)]
        · rw [if_neg h1, if_neg h2]
          simp
    omega

theorem cntGt_eq_zero (l : List ℚ) (x : ℚ) (h : ∀ y ∈ l, y ≤ x) : cntGt l x = 0 := by
  induction l with
  | nil => rfl
  | cons a t ih =>
    rw [cntGt_cons, if_neg (not_lt.mpr (h a (List.mem_cons_self _ _)))]
    simp [ih (fun y hy => h y (List.mem_cons_of_mem _ hy))]

theorem compositeScore_eq (batch : List StockRow) (r : StockRow) (a b c d e f : ℚ)
    (hpe : normMetric (fun x => x.pe) batch r = some a)
    (hpb : normMetric (fun x => x.pb) batch r = some b)
    (hroe : normMetric (fun x => x.roe) batch r = some c)
    (hroa : normMetric (fun x => x.roa) batch r = some d)
    (hps : normMetric (fun x => x.ps) batch r = some e)
    (hdte : normMetric (fun x => x.dte) batch r = some f) :
    compositeScore batch r = some (compositeOf a b c d e f) := by
  simp [compositeScore, valueScore, qualityScore, momentumScore, volatilityScore,
    hpe, hpb, hroe, hroa, hps, hdte, compositeOf]

theorem compositeScore_some (batch : List StockRow) (r : StockRow) (z : ℚ)
    (h : compositeScore batch r = some z) :
    ∃ a b c d e f : ℚ,
      normMetric (fun x => x.pe) batch r = some a ∧
      normMetric (fun x => x.pb) batch r = some b ∧
      normMetric (fun x => x.roe) batch r = some c ∧
      normMetric (fun x => x.roa) batch r = some d ∧
      normMetric (fun x => x.ps) batch r = some e ∧
      normMetric (fun x => x.dte) batch r = some f ∧
      z = compositeOf a b c d e f := by
  cases hpe : normMetric (fun x => x.pe) batch r with
  | none =>
    exfalso
    simp [compositeScore, valueScore, qualityScore, momentumScore, volatilityScore, hpe] at h
  | some a =>
  cases hpb : normMetric (fun x => x.pb) batch r with
  | none =>
    exfalso
    simp [compositeScore, valueScore, qualityScore, momentumScore, volatilityScore, hpe, hpb] at h
  | some b =>
  cases hroe : normMetric (fun x => x.roe) batch r with
  | none =>
    exfalso
    simp [compositeScore, valueScore, qualityScore, momentumScore, volatilityScore,
      hpe, hpb, hroe] at h
  | some c =>
  cases hroa : normMetric (fun x => x.roa) batch r with
  | none =>
    exfalso
    simp [compositeScore, valueScore, qualityScore, momentumScore, volatilityScore,
      hpe, hpb, hroe, hroa] at h
  | some d =>
  cases hps : normMetric (fun x => x.ps) batch r with
  | none =>
    exfalso
    simp [compositeScore, valueScore, qualityScore, momentumScore, volatilityScore,
      hpe, hpb, hroe, hroa, hps] at h
  | some e =>
  cases hdte : normMetric (fun x => x.dte) batch r with
  | none =>
    exfalso
    simp [compositeScore, valueScore, qualityScore, momentumScore, volatilityScore,
      hpe, hpb, hroe, hroa, hps, hdte] at h
  | some f =>
    refine ⟨a, b, c, d, e, f, rfl, rfl, rfl, rfl, rfl, rfl, ?_⟩
    rw [compositeScore_eq batch r a b c d e f hpe hpb hroe hroa hps hdte] at h
    exact (Option.some.inj h).symm

theorem compositeOf_mono (a1 b1 c1 d1 e1 f1 a2 b2 c2 d2 e2 f2 : ℚ)
    (ha : a1 ≤ a2) (hb : b1 ≤ b2) (hc : c1 ≤ c2) (hd : d1 ≤ d2)
    (he : e1 ≤ e2) (hf : f1 ≤ f2) :
    compositeOf a1 b1 c1 d1 e1 f1 ≤ compositeOf a2 b2 c2 d2 e2 f2 := by
  unfold compositeOf
  linarith

@[simp]
theorem colRankInt_some (l : List (Option ℚ)) (x : ℚ) :
    colRankInt l (some x) = some (rankDescInt (definedVals l) x) := rfl

@[simp]
theorem colRankInt_none (l : List (Option ℚ)) : colRankInt l none = none := rfl

@[simp]
theorem colPctRank_some (l : List (Option ℚ)) (x : ℚ) :
    colPctRank l (some x) = some (pctRankAsc (definedVals l) x) := rfl

@[simp]
theorem colPctRank_none (l : List (Option ℚ)) : colPctRank l none = none := rfl

theorem normMetric_pair_eq (colf : StockRow → ℚ) (pre post : List StockRow)
    (r1 r2 : StockRow) (x1 x2 : ℚ) (hceq : colf r1 = colf r2)
    (h1 : normMetric colf (pre ++ r1 :: post) r1 = some x1)
    (h2 : normMetric colf (pre ++ r2 :: post) r2 = some x2) : x1 = x2 := by
  rw [normMetric_insert_congr colf pre post r1 r2 hceq] at h1
  rw [h2] at h1
  exact (Option.some.inj h1).symm

theorem pctRankAsc_mono (l : List ℚ) (x y : ℚ) (h : x ≤ y) :
    pctRankAsc l x ≤ pctRankAsc l y := by
  rcases eq_or_lt_of_le h with he | hlt
  · rw [he]
  · unfold pctRankAsc
    rcases Nat.eq_zero_or_pos l.length with h0 | hpos
    · rw [h0]
      norm_num
    · have hc := cntLt_add_cntEq_le l x y hlt
      have hnum : ((cntLt l x : ℚ) + ((cntEq l x : ℚ) + 1) / 2)
          ≤ ((cntLt l y : ℚ) + ((cntEq l y : ℚ) + 1) / 2) := by
        have h1 : (cntLt l x : ℚ) + (cntEq l x : ℚ) ≤ (cntLt l y : ℚ) := by
          exact_mod_cast hc
        have h2 : (0:ℚ) ≤ (cntEq l x : ℚ) := Nat.cast_nonneg _
        have h3 : (0:ℚ) ≤ (cntEq l y : ℚ) := Nat.cast_nonneg _
        linarith
      have hposQ : (0:ℚ) < (l.length : ℚ) := by exact_mod_cast hpos
      exact (div_le_div_iff_of_pos_right hposQ).mpr hnum

theorem geCount_antitone (x y : ℚ) (h : x ≤ y) : geCount y ≤ geCount x := by
  unfold geCount
  have hgen : ∀ l : List ℚ,
      (l.filter (fun e => decide (y ≤ e))).length ≤
        (l.filter (fun e => decide (x ≤ e))).length := by
    intro l
    induction l with
    | nil => simp
    | cons a t ih =>
      by_cases hy : y ≤ a
      · have hx : x ≤ a := le_trans h hy
        simp [List.filter_cons, hy, hx]
        omega
      · by_cases hx : x ≤ a
        · simp [List.filter_cons, hy, hx]
          omega
        · simp [List.filter_cons, hy, hx]
          exact ih
  exact hgen bucketEdges

theorem bucketIdx_mono (x y : ℚ) (h : x ≤ y) : bucketIdx x ≤ bucketIdx y := by
  unfold bucketIdx
  have := geCount_antitone x y h
  omega

/-- C1: the claim says a missing raw value stays an explicit unavailable
marker through every stage and is never replaced by the numeric default 0.
The code does the opposite: fetch_data reads every ratio with
info.get(key, 0), so an issuer with no data gets raw value 0 for every
metric, and that 0 then takes part in normalization and scoring as a real
number (here it normalizes to 0, the batch minimum, and yields composite
score 0), never as an unavailable marker. -/
theorem C1_missing_coerced_to_zero :
    (fetch_data yfMissingAll).trailingPE = 0 ∧
    (fetch_data yfMissingAll).priceToBook = 0 ∧
    (fetch_data yfMissingAll).priceToSalesTrailing12Months = 0 ∧
    (fetch_data yfMissingAll).returnOnEquity = 0 ∧
    (fetch_data yfMissingAll).returnOnAssets = 0 ∧
    (fetch_data yfMissingAll).debtToEquity = 0 ∧
    normMetric (fun x => x.pe) c1batch rowMissing = some 0 ∧
    compositeScore c1batch rowMissing = some 0 := by
  refine ⟨rfl, rfl, rfl, rfl, rfl, rfl, ?_, ?_⟩
  · norm_num [normMetric, normVal, c1batch, rowMissing, rowOfFetched, fetch_data,
      yfMissingAll, mkRow, colMin, colMax, min_def, max_def]
  · norm_num [compositeScore, valueScore, qualityScore, momentumScore, volatilityScore,
      normMetric, normVal, c1batch, rowMissing, rowOfFetched, fetch_data, yfMissingAll,
      mkRow, colMin, colMax, min_def, max_def, oAdd, oSMul]

/-- C3 (counterexample): in a batch whose P/E column is constant (both
issuers have P/E 5, so max = min), the claim says every value normalizes to
0.5; the code instead produces 0/0 = NaN (modeled none), not 0.5. -/
theorem C3_counterexample :
    normMetric (fun x => x.pe) c3batch (mkRow "A" "Tech" 5) = none ∧
    normMetric (fun x => x.pe) c3batch (mkRow "A" "Tech" 5) ≠ some (1/2 : ℚ) := by
  have h : normMetric (fun x => x.pe) c3batch (mkRow "A" "Tech" 5) = none := by
    norm_num [normMetric, normVal, c3batch, mkRow, colMin, colMax, min_def, max_def]
  exact ⟨h, by rw [h]; simp⟩

/-- C3 (amended): for every metric whose values in the batch are all equal
(max = min), normalization maps every value to the undefined marker (the
NaN of 0/0), not to the constant 0.5; no exception is raised, the
computation is total. -/
theorem C3_degenerate_norm_undefined (col : StockRow → ℚ) (batch : List StockRow)
    (r : StockRow) (h : colMax (batch.map col) = colMin (batch.map col)) :
    normMetric col batch r = none := by
  simp [normMetric, normVal, h]

theorem C3_degenerate_norm_undefined_witness :
    colMax (c3batch.map (fun x => x.pe)) = colMin (c3batch.map (fun x => x.pe)) ∧
    normMetric (fun x => x.pe) c3batch (mkRow "B" "Tech" 5) = none := by
  have h : colMax (c3batch.map (fun x => x.pe)) = colMin (c3batch.map (fun x => x.pe)) := by
    norm_num [c3batch, mkRow, colMin, colMax, min_def, max_def]
  exact ⟨h, C3_degenerate_norm_undefined (fun x => x.pe) c3batch (mkRow "B" "Tech" 5) h⟩

/-- C5: for every metric and every batch holding two issuers with distinct
values, every value normalizes to (v - min) / (max - min) over the batch,
the issuers attaining the batch minimum normalize to exactly 0, and the
issuers attaining the batch maximum normalize to exactly 1. -/
theorem C5_minmax_normalization (col : StockRow → ℚ) (batch : List StockRow)
    (r1 r2 : StockRow) (h1 : r1 ∈ batch) (h2 : r2 ∈ batch) (hne : col r1 ≠ col r2) :
    (∀ r ∈ batch, normMetric col batch r =
      some ((col r - colMin (batch.map col)) /
        (colMax (batch.map col) - colMin (batch.map col)))) ∧
    (∀ r ∈ batch, col r = colMin (batch.map col) → normMetric col batch r = some 0) ∧
    (∀ r ∈ batch, col r = colMax (batch.map col) → normMetric col batch r = some 1) := by
  have hmem1 : col r1 ∈ batch.map col := List.mem_map_of_mem col h1
  have hmem2 : col r2 ∈ batch.map col := List.mem_map_of_mem col h2
  have hMm : colMax (batch.map col) ≠ colMin (batch.map col) := by
    intro he
    apply hne
    have ha := colMin_le _ _ hmem1
    have hb := le_colMax _ _ hmem1
    have hc := colMin_le _ _ hmem2
    have hd := le_colMax _ _ hmem2
    linarith
  have hsub : colMax (batch.map col) - colMin (batch.map col) ≠ 0 := sub_ne_zero.mpr hMm
  refine ⟨?_, ?_, ?_⟩
  · intro r _
    unfold normMetric normVal
    rw [if_neg hMm]
  · intro r _ hr
    unfold normMetric normVal
    rw [if_neg hMm, hr]
    simp
  · intro r _ hr
    unfold normMetric normVal
    rw [if_neg hMm, hr, div_self hsub]

theorem C5_minmax_normalization_witness :
    normMetric (fun x => x.pe) w5batch (mkRow "V" "U" 0) = some 0 ∧
    normMetric (fun x => x.pe) w5batch (mkRow "W" "U" 4) = some 1 := by
  have h := C5_minmax_normalization (fun x => x.pe) w5batch (mkRow "V" "U" 0)
    (mkRow "W" "U" 4) (by simp [w5batch]) (by simp [w5batch]) (by norm_num [mkRow])
  exact ⟨h.2.1 _ (by simp [w5batch])
      (by norm_num [w5batch, mkRow, colMin, min_def]),
    h.2.2 _ (by simp [w5batch])
      (by norm_num [w5batch, mkRow, colMax, max_def])⟩

/-- C6: for an issuer whose four factor scores are all defined (equivalently
all six normalized metrics are defined), the composite score equals
0.3 * Value + 0.3 * Quality + 0.3 * Momentum + 0.1 * Volatility where Value
is the unweighted mean of normalized P/E and P/B and Quality is the
unweighted mean of normalized ROE and ROA; over the rationals the equality
is exact, hence within any floating-point tolerance. -/
theorem C6_composite_weighted_sum (batch : List StockRow) (r : StockRow)
    (a b c d e f : ℚ)
    (hpe : normMetric (fun x => x.pe) batch r = some a)
    (hpb : normMetric (fun x => x.pb) batch r = some b)
    (hroe : normMetric (fun x => x.roe) batch r = some c)
    (hroa : normMetric (fun x => x.roa) batch r = some d)
    (hps : normMetric (fun x => x.ps) batch r = some e)
    (hdte : normMetric (fun x => x.dte) batch r = some f) :
    compositeScore batch r =
      some (3/10 * ((a + b) / 2) + 3/10 * ((c + d) / 2) + 3/10 * e + 1/10 * f) := by
  rw [compositeScore_eq batch r a b c d e f hpe hpb hroe hroa hps hdte]
  congr 1
  unfold compositeOf
  ring

theorem C6_composite_weighted_sum_witness :
    compositeScore w6batch (mkRow "N" "U" 3) =
      some (3/10 * (((1:ℚ) + 1) / 2) + 3/10 * ((1 + 1) / 2) + 3/10 * 1 + 1/10 * 1) :=
  C6_composite_weighted_sum w6batch (mkRow "N" "U" 3) 1 1 1 1 1 1
    (by norm_num [normMetric, normVal, w6batch, mkRow, colMin, colMax, min_def, max_def])
    (by norm_num [normMetric, normVal, w6batch, mkRow, colMin, colMax, min_def, max_def])
    (by norm_num [normMetric, normVal, w6batch, mkRow, colMin, colMax, min_def, max_def])
    (by norm_num [normMetric, normVal, w6batch, mkRow, colMin, colMax, min_def, max_def])
    (by norm_num [normMetric, normVal, w6batch, mkRow, colMin, colMax, min_def, max_def])
    (by norm_num [normMetric, normVal, w6batch, mkRow, colMin, colMax, min_def, max_def])

/-- C7: the ranking pipeline of lines 59-94 maps the empty issuer batch to
the empty list of ranked rows, and raises no error (the embedding is a
total function). -/
theorem C7_empty_batch : rankedRows ([] : List StockRow) = [] := rfl

/-- C8: the sector filter of lines 113-116 runs after every rank column has
been computed over the full batch: every retained row is literally one of
the rows of the full-batch ranking (so all its rank and bucket fields are
unchanged), the filter with selection All keeps every row, and any other
selection keeps exactly the rows whose sector is string-equal
(case-sensitively) to the selection. -/
theorem C8_sector_filter (batch : List StockRow) (s : String) (row : RankedRow)
    (hrow : row ∈ filterSector s (rankedRows batch)) :
    row ∈ rankedRows batch ∧
    filterSector "All" (rankedRows batch) = rankedRows batch ∧
    (s ≠ "All" → row.sector = s) := by
  have hAll : filterSector "All" (rankedRows batch) = rankedRows batch := by
    simp [filterSector]
  by_cases hs : s = "All"
  · subst hs
    rw [filterSector, if_pos rfl] at hrow
    exact ⟨hrow, hAll, fun hne => absurd rfl hne⟩
  · rw [filterSector, if_neg hs] at hrow
    obtain ⟨hmem, hsec⟩ := List.mem_filter.mp hrow
    exact ⟨hmem, hAll, fun _ => of_decide_eq_true hsec⟩

set_option maxHeartbeats 2000000 in
theorem C8_sector_filter_witness :
    w8row ∈ rankedRows w8batch ∧
    filterSector "All" (rankedRows w8batch) = rankedRows w8batch ∧
    ("Tech" ≠ "All" → w8row.sector = "Tech") :=
  C8_sector_filter w8batch "Tech" w8row
    (by
      norm_num [filterSector, rankedRows, w8batch, w8row, mkRow, compositeScore,
        valueScore, qualityScore, momentumScore, volatilityScore, normMetric, normVal,
        colMin, colMax, oAdd, oSMul, colRankInt, compositeCol, valueCol, qualityCol,
        momentumCol, volatilityCol, definedVals, rankDescInt, cntGt, cntEq, cntLt,
        List.filter, List.filterMap_cons, List.filterMap_nil, min_def, max_def,
        rankPercentageOf, colPctRank, pctRankAsc, bucketLabel, bucketIdx, geCount,
        bucketEdges, bucketLabels]
      decide)

/-- C2 (counterexample): the claim says every rank column is a bijection
onto the first k positive integers with ties broken by issuer identifier.
In the batch c2batch issuers A and B tie at the top composite score: pandas
assigns both the average rank 1.5, and astype(int) truncates both to 1, so
the Composite Rank column is [1, 1, 3], which is not injective and misses
the value 2; no identifier tie-break happens. -/
theorem C2_tie_counterexample :
    (rankedRows c2batch).map (fun row => row.compositeRank) = [some 1, some 1, some 3] ∧
    ¬ ((rankedRows c2batch).map (fun row => row.compositeRank)).Nodup := by
  have h : (rankedRows c2batch).map (fun row => row.compositeRank)
      = [some 1, some 1, some 3] := by
    set_option maxHeartbeats 2000000 in
    norm_num [rankedRows, c2batch, mkRow, compositeScore, valueScore, qualityScore,
      momentumScore, volatilityScore, normMetric, normVal, colMin, colMax, oAdd, oSMul,
      colRankInt, compositeCol, definedVals, rankDescInt, cntGt, cntEq, List.filter,
      List.filterMap_cons, List.filterMap_nil, min_def, max_def]
  refine ⟨h, ?_⟩
  rw [h]
  decide

/-- C2 (amended): on a score column with no ties (all defined scores
pairwise distinct) the rank column of lines 77-81 is a bijection onto
1..n: the ranks are pairwise distinct, each lies between 1 and n, every
integer from 1 to n is attained, and the issuer with the highest score gets
rank 1; the computation is a pure function of the column, hence
reproducible on identical input.  With ties the column instead repeats the
truncated average rank, as the counterexample shows. -/
theorem C2_distinct_rank_bijection (l : List ℚ) (hnd : l.Nodup) :
    (l.map (rankDescInt l)).Nodup ∧
    (∀ k ∈ l.map (rankDescInt l), 1 ≤ k ∧ k ≤ l.length) ∧
    (∀ k : ℕ, 1 ≤ k → k ≤ l.length → k ∈ l.map (rankDescInt l)) ∧
    (∀ x ∈ l, (∀ y ∈ l, y ≤ x) → rankDescInt l x = 1) := by
  have hrank : ∀ x ∈ l, rankDescInt l x = cntGt l x + 1 := by
    intro x hx
    unfold rankDescInt
    rw [cntEq_nodup l x hnd hx]
  have hbound : ∀ x ∈ l, 1 ≤ rankDescInt l x ∧ rankDescInt l x ≤ l.length := by
    intro x hx
    have hpart := cnt_partition l x
    have heq := cntEq_nodup l x hnd hx
    rw [hrank x hx]
    omega
  have hinj : ∀ x ∈ l, ∀ y ∈ l, rankDescInt l x = rankDescInt l y → x = y := by
    intro x hx y hy hfeq
    by_contra hne
    rcases lt_or_gt_of_ne hne with hlt | hlt
    · have hle := cntGt_add_cntEq_le l x y hlt
      have heqy := cntEq_nodup l y hnd hy
      rw [hrank x hx, hrank y hy] at hfeq
      omega
    · have hle := cntGt_add_cntEq_le l y x hlt
      have heqx := cntEq_nodup l x hnd hx
      rw [hrank x hx, hrank y hy] at hfeq
      omega
  refine ⟨List.Nodup.map_on hinj hnd, ?_, ?_, ?_⟩
  · intro k hk
    obtain ⟨x, hx, hfx⟩ := List.mem_map.mp hk
    rw [← hfx]
    exact hbound x hx
  · intro k hk1 hk2
    have hcard : l.toFinset.card = l.length := List.toFinset_card_of_nodup hnd
    have hinjOn : Set.InjOn (rankDescInt l) l.toFinset := by
      intro x hx y hy hf
      exact hinj x (List.mem_toFinset.mp hx) y (List.mem_toFinset.mp hy) hf
    have hsub : l.toFinset.image (rankDescInt l) ⊆ Finset.Icc 1 l.length := by
      intro j hj
      obtain ⟨x, hx, hfx⟩ := Finset.mem_image.mp hj
      rw [← hfx]
      exact Finset.mem_Icc.mpr (hbound x (List.mem_toFinset.mp hx))
    have hicc : (Finset.Icc 1 l.length).card = l.length := by
      rw [Nat.card_Icc]
      omega
    have himgcard : (l.toFinset.image (rankDescInt l)).card = l.length := by
      rw [Finset.card_image_of_injOn hinjOn, hcard]
    have heqset : l.toFinset.image (rankDescInt l) = Finset.Icc 1 l.length :=
      Finset.eq_of_subset_of_card_le hsub (by simp [hicc, himgcard])
    have hkmem : k ∈ l.toFinset.image (rankDescInt l) := by
      rw [heqset]
      exact Finset.mem_Icc.mpr ⟨hk1, hk2⟩
    obtain ⟨x, hx, hfx⟩ := Finset.mem_image.mp hkmem
    exact List.mem_map.mpr ⟨x, List.mem_toFinset.mp hx, hfx⟩
  · intro x hx hmax
    rw [hrank x hx, cntGt_eq_zero l x hmax]

theorem C2_distinct_rank_bijection_witness :
    (([(5:ℚ), 2, 9]).map (rankDescInt [(5:ℚ), 2, 9])).Nodup ∧
    (∀ k ∈ ([(5:ℚ), 2, 9]).map (rankDescInt [(5:ℚ), 2, 9]),
      1 ≤ k ∧ k ≤ ([(5:ℚ), 2, 9]).length) ∧
    (∀ k : ℕ, 1 ≤ k → k ≤ ([(5:ℚ), 2, 9]).length →
      k ∈ ([(5:ℚ), 2, 9]).map (rankDescInt [(5:ℚ), 2, 9])) ∧
    (∀ x ∈ [(5:ℚ), 2, 9], (∀ y ∈ [(5:ℚ), 2, 9], y ≤ x) →
      rankDescInt [(5:ℚ), 2, 9] x = 1) :=
  C2_distinct_rank_bijection [5, 2, 9] (by norm_num)

/-- C4 (counterexample): the claim says a percentile rank lying exactly on
a bin edge goes to the higher (better) bucket.  In the two-issuer batch
c4batch the worse issuer has percentile rank exactly 1/2, an edge of
np.linspace(0, 1, 11); pd.cut uses right-closed bins, so the issuer lands
in (0.4, 0.5], labeled Bottom 50%, the lower bucket, not Top 50%. -/
theorem C4_boundary_counterexample :
    colPctRank (compositeCol c4batch) (compositeScore c4batch (mkRow "A" "Tech" 0))
      = some (1/2) ∧
    rankPercentageOf c4batch (mkRow "A" "Tech" 0) = some "Bottom 50%" ∧
    ("Bottom 50%" : String) ≠ "Top 50%" := by
  refine ⟨?_, ?_, by decide⟩
  · norm_num [colPctRank, compositeCol, compositeScore, valueScore, qualityScore,
      momentumScore, volatilityScore, normMetric, normVal, c4batch, mkRow, colMin,
      colMax, oAdd, oSMul, definedVals, List.filterMap_cons, List.filterMap_nil,
      pctRankAsc, cntLt, cntEq, List.filter, min_def, max_def]
  · norm_num [rankPercentageOf, colPctRank, compositeCol, compositeScore, valueScore,
      qualityScore, momentumScore, volatilityScore, normMetric, normVal, c4batch, mkRow,
      colMin, colMax, oAdd, oSMul, definedVals, List.filterMap_cons, List.filterMap_nil,
      pctRankAsc, cntLt, cntEq, List.filter, min_def, max_def, bucketLabel, bucketIdx,
      geCount, bucketEdges, bucketLabels]

/-- C4 (amended): for a batch whose defined composite scores are pairwise
distinct, each ranked issuer's percentile rank equals its inclusive
ascending rank divided by the count of defined scores; the ten decile bins
have edges 0, 0.1, ..., 1.0 with the labels of lines 86-87 from Bottom 10%
(worst) to Top 10% (best), but the bins are right-closed: a percentile rank
lying exactly on an edge k/10 is assigned to the lower bucket, the one
whose label has index k-1 (with ties, the percentile rank is instead the
average ascending rank over the count, as the counterexample forces). -/
theorem C4_pct_formula_and_closed_bins (batch : List StockRow) (r : StockRow) (c : ℚ)
    (hr : r ∈ batch) (hc : compositeScore batch r = some c)
    (hnd : (definedVals (compositeCol batch)).Nodup) :
    colPctRank (compositeCol batch) (compositeScore batch r) =
      some (((cntLt (definedVals (compositeCol batch)) c : ℚ) + 1) /
        ((definedVals (compositeCol batch)).length : ℚ)) ∧
    (∀ k : Fin 10, bucketLabel ((((k : ℕ) : ℚ) + 1) / 10) = bucketLabels.get? (k : ℕ)) := by
  constructor
  · have hcmem : c ∈ definedVals (compositeCol batch) :=
      List.mem_filterMap.mpr ⟨some c, List.mem_map.mpr ⟨r, hr, hc⟩, rfl⟩
    have heq1 := cntEq_nodup _ c hnd hcmem
    rw [hc, colPctRank_some]
    congr 1
    unfold pctRankAsc
    rw [heq1]
    norm_num
  · intro k
    fin_cases k <;>
      norm_num [bucketLabel, bucketIdx, geCount, bucketEdges, bucketLabels, List.filter]

theorem C4_pct_formula_and_closed_bins_witness :
    colPctRank (compositeCol w4batch) (compositeScore w4batch (mkRow "P" "U" 0)) =
      some (((cntLt (definedVals (compositeCol w4batch)) 0 : ℚ) + 1) /
        ((definedVals (compositeCol w4batch)).length : ℚ)) ∧
    (∀ k : Fin 10, bucketLabel ((((k : ℕ) : ℚ) + 1) / 10) = bucketLabels.get? (k : ℕ)) :=
  C4_pct_formula_and_closed_bins w4batch (mkRow "P" "U" 0) 0
    (by simp [w4batch])
    (by norm_num [compositeScore, valueScore, qualityScore, momentumScore,
      volatilityScore, normMetric, normVal, w4batch, mkRow, colMin, colMax, oAdd,
      oSMul, min_def, max_def])
    (by norm_num [compositeCol, compositeScore, valueScore, qualityScore,
      momentumScore, volatilityScore, normMetric, normVal, w4batch, mkRow, colMin,
      colMax, oAdd, oSMul, definedVals, List.filterMap_cons, List.filterMap_nil,
      min_def, max_def, List.nodup_cons])

/-- C9 (counterexample): the claim says the issuer with composite rank 1 is
always in the top bucket when any composite score is defined.  In c9batch
issuers X and Y tie at the top: both get truncated average rank 1 (so both
have composite rank 1), but their percentile rank is 5/6, which pd.cut puts
in (0.8, 0.9], labeled Top 20%, not the top bucket Top 10%. -/
theorem C9_tie_counterexample :
    (rankedRows c9batch).map (fun row => (row.compositeRank, row.rankPercentage)) =
      [(some 1, some "Top 20%"), (some 1, some "Top 20%"), (some 3, some "Bottom 40%")] ∧
    (some "Top 20%" : Option String) ≠ some "Top 10%" := by
  refine ⟨?_, by decide⟩
  set_option maxHeartbeats 3000000 in
  norm_num [rankedRows, c9batch, mkRow, compositeScore, valueScore, qualityScore,
    momentumScore, volatilityScore, normMetric, normVal, colMin, colMax, oAdd, oSMul,
    colRankInt, compositeCol, definedVals, rankDescInt, cntGt, cntEq, cntLt,
    List.filter, List.filterMap_cons, List.filterMap_nil, min_def, max_def,
    rankPercentageOf, colPctRank, pctRankAsc, bucketLabel, bucketIdx, geCount,
    bucketEdges, bucketLabels]

/-- C9 (amended): the percentile bucket is monotone non-decreasing in the
composite score (a higher defined composite score never yields a smaller
pd.cut bin index, and the labels of lines 86-87 are ordered worst to best
by index); and whenever an issuer's defined composite score is the unique
maximum of the defined scores, that issuer has composite rank 1 and
percentile bucket Top 10%.  When the maximum is tied, the rank-1 issuers
can land below the top bucket, as the counterexample forces. -/
theorem C9_monotone_and_unique_top (batch : List StockRow) :
    (∀ c1 c2 : ℚ, c1 ≤ c2 →
      pctRankAsc (definedVals (compositeCol batch)) c1 ≤
        pctRankAsc (definedVals (compositeCol batch)) c2 ∧
      bucketIdx (pctRankAsc (definedVals (compositeCol batch)) c1) ≤
        bucketIdx (pctRankAsc (definedVals (compositeCol batch)) c2)) ∧
    (∀ r ∈ batch, ∀ c : ℚ, compositeScore batch r = some c →
      (∀ y ∈ definedVals (compositeCol batch), y ≤ c) →
      cntEq (definedVals (compositeCol batch)) c = 1 →
      colRankInt (compositeCol batch) (compositeScore batch r) = some 1 ∧
      rankPercentageOf batch r = some "Top 10%") := by
  constructor
  · intro c1 c2 hc
    exact ⟨pctRankAsc_mono _ _ _ hc, bucketIdx_mono _ _ (pctRankAsc_mono _ _ _ hc)⟩
  · intro r hr c hc hmax huniq
    have hcmem : c ∈ definedVals (compositeCol batch) :=
      List.mem_filterMap.mpr ⟨some c, List.mem_map.mpr ⟨r, hr, hc⟩, rfl⟩
    have hgt0 : cntGt (definedVals (compositeCol batch)) c = 0 := cntGt_eq_zero _ _ hmax
    have hpart := cnt_partition (definedVals (compositeCol batch)) c
    have hlenpos : 0 < (definedVals (compositeCol batch)).length :=
      List.length_pos.mpr (List.ne_nil_of_mem hcmem)
    constructor
    · rw [hc, colRankInt_some]
      unfold rankDescInt
      rw [hgt0, huniq]
    · unfold rankPercentageOf
      rw [hc, colPctRank_some]
      have hlt : cntLt (definedVals (compositeCol batch)) c
          = (definedVals (compositeCol batch)).length - 1 := by omega
      have hlenQ : ((definedVals (compositeCol batch)).length : ℚ) ≠ 0 :=
        Nat.cast_ne_zero.mpr (by omega)
      have hpct : pctRankAsc (definedVals (compositeCol batch)) c = 1 := by
        unfold pctRankAsc
        rw [huniq, hlt, Nat.cast_sub (by omega), div_eq_iff hlenQ]
        push_cast
        ring
      rw [hpct]
      norm_num [bucketLabel, bucketIdx, geCount, bucketEdges, bucketLabels, List.filter]

theorem C9_monotone_and_unique_top_witness :
    colRankInt (compositeCol w9batch) (compositeScore w9batch (mkRow "G" "U" 1)) = some 1 ∧
    rankPercentageOf w9batch (mkRow "G" "U" 1) = some "Top 10%" :=
  (C9_monotone_and_unique_top w9batch).2 (mkRow "G" "U" 1) (by simp [w9batch]) 1
    (by norm_num [compositeScore, valueScore, qualityScore, momentumScore,
      volatilityScore, normMetric, normVal, w9batch, mkRow, colMin, colMax, oAdd,
      oSMul, min_def, max_def])
    (by norm_num [compositeCol, compositeScore, valueScore, qualityScore,
      momentumScore, volatilityScore, normMetric, normVal, w9batch, mkRow, colMin,
      colMax, oAdd, oSMul, definedVals, List.filterMap_cons, List.filterMap_nil,
      min_def, max_def])
    (by norm_num [cntEq, List.filter, compositeCol, compositeScore, valueScore,
      qualityScore, momentumScore, volatilityScore, normMetric, normVal, w9batch,
      mkRow, colMin, colMax, oAdd, oSMul, definedVals, List.filterMap_cons,
      List.filterMap_nil, min_def, max_def])

/-- C10: the composite score is monotone non-decreasing in every raw
metric: if one issuer's raw value of any one of the six metrics is
increased while every other input is held fixed, and the issuer's composite
score is defined before and after the change, the composite score does not
decrease.  No metric is inverted by the pipeline, so raising a
conventionally lower-is-better metric (P/E, P/B, P/S, Debt-to-Equity)
raises the score. -/
theorem C10_composite_monotone (m : Metric) (pre post : List StockRow) (r : StockRow)
    (v1 v2 c1 c2 : ℚ) (hv : v1 ≤ v2)
    (h1 : compositeScore (pre ++ setMetric m v1 r :: post) (setMetric m v1 r) = some c1)
    (h2 : compositeScore (pre ++ setMetric m v2 r :: post) (setMetric m v2 r) = some c2) :
    c1 ≤ c2 := by
  obtain ⟨a1, b1, q1, d1, e1, f1, hpe1, hpb1, hroe1, hroa1, hps1, hdte1, hz1⟩ :=
    compositeScore_some _ _ _ h1
  obtain ⟨a2, b2, q2, d2, e2, f2, hpe2, hpb2, hroe2, hroa2, hps2, hdte2, hz2⟩ :=
    compositeScore_some _ _ _ h2
  rw [hz1, hz2]
  cases m with
  | pe =>
    apply compositeOf_mono
    · exact normMetric_insert_mono _ pre post _ _ _ _ (by simpa [setMetric] using hv) hpe1 hpe2
    · exact le_of_eq (normMetric_pair_eq _ pre post _ _ _ _ (by simp [setMetric]) hpb1 hpb2)
    · exact le_of_eq (normMetric_pair_eq _ pre post _ _ _ _ (by simp [setMetric]) hroe1 hroe2)
    · exact le_of_eq (normMetric_pair_eq _ pre post _ _ _ _ (by simp [setMetric]) hroa1 hroa2)
    · exact le_of_eq (normMetric_pair_eq _ pre post _ _ _ _ (by simp [setMetric]) hps1 hps2)
    · exact le_of_eq (normMetric_pair_eq _ pre post _ _ _ _ (by simp [setMetric]) hdte1 hdte2)
  | pb =>
    apply compositeOf_mono
    · exact le_of_eq (normMetric_pair_eq _ pre post _ _ _ _ (by simp [setMetric]) hpe1 hpe2)
    · exact normMetric_insert_mono _ pre post _ _ _ _ (by simpa [setMetric] using hv) hpb1 hpb2
    · exact le_of_eq (normMetric_pair_eq _ pre post _ _ _ _ (by simp [setMetric]) hroe1 hroe2)
    · exact le_of_eq (normMetric_pair_eq _ pre post _ _ _ _ (by simp [setMetric]) hroa1 hroa2)
    · exact le_of_eq (normMetric_pair_eq _ pre post _ _ _ _ (by simp [setMetric]) hps1 hps2)
    · exact le_of_eq (normMetric_pair_eq _ pre post _ _ _ _ (by simp [setMetric]) hdte1 hdte2)
  | ps =>
    apply compositeOf_mono
    · exact le_of_eq (normMetric_pair_eq _ pre post _ _ _ _ (by simp [setMetric]) hpe1 hpe2)
    · exact le_of_eq (normMetric_pair_eq _ pre post _ _ _ _ (by simp [setMetric]) hpb1 hpb2)
    · exact le_of_eq (normMetric_pair_eq _ pre post _ _ _ _ (by simp [setMetric]) hroe1 hroe2)
    · exact le_of_eq (normMetric_pair_eq _ pre post _ _ _ _ (by simp [setMetric]) hroa1 hroa2)
    · exact normMetric_insert_mono _ pre post _ _ _ _ (by simpa [setMetric] using hv) hps1 hps2
    · exact le_of_eq (normMetric_pair_eq _ pre post _ _ _ _ (by simp [setMetric]) hdte1 hdte2)
  | roe =>
    apply compositeOf_mono
    · exact le_of_eq (normMetric_pair_eq _ pre post _ _ _ _ (by simp [setMetric]) hpe1 hpe2)
    · exact le_of_eq (normMetric_pair_eq _ pre post _ _ _ _ (by simp [setMetric]) hpb1 hpb2)
    · exact normMetric_insert_mono _ pre post _ _ _ _ (by simpa [setMetric] using hv) hroe1 hroe2
    · exact le_of_eq (normMetric_pair_eq _ pre post _ _ _ _ (by simp [setMetric]) hroa1 hroa2)
    · exact le_of_eq (normMetric_pair_eq _ pre post _ _ _ _ (by simp [setMetric]) hps1 hps2)
    · exact le_of_eq (normMetric_pair_eq _ pre post _ _ _ _ (by simp [setMetric]) hdte1 hdte2)
  | roa =>
    apply compositeOf_mono
    · exact le_of_eq (normMetric_pair_eq _ pre post _ _ _ _ (by simp [setMetric]) hpe1 hpe2)
    · exact le_of_eq (normMetric_pair_eq _ pre post _ _ _ _ (by simp [setMetric]) hpb1 hpb2)
    · exact le_of_eq (normMetric_pair_eq _ pre post _ _ _ _ (by simp [setMetric]) hroe1 hroe2)
    · exact normMetric_insert_mono _ pre post _ _ _ _ (by simpa [setMetric] using hv) hroa1 hroa2
    · exact le_of_eq (normMetric_pair_eq _ pre post _ _ _ _ (by simp [setMetric]) hps1 hps2)
    · exact le_of_eq (normMetric_pair_eq _ pre post _ _ _ _ (by simp [setMetric]) hdte1 hdte2)
  | dte =>
    apply compositeOf_mono
    · exact le_of_eq (normMetric_pair_eq _ pre post _ _ _ _ (by simp [setMetric]) hpe1 hpe2)
    · exact le_of_eq (normMetric_pair_eq _ pre post _ _ _ _ (by simp [setMetric]) hpb1 hpb2)
    · exact le_of_eq (normMetric_pair_eq _ pre post _ _ _ _ (by simp [setMetric]) hroe1 hroe2)
    · exact le_of_eq (normMetric_pair_eq _ pre post _ _ _ _ (by simp [setMetric]) hroa1 hroa2)
    · exact le_of_eq (normMetric_pair_eq _ pre post _ _ _ _ (by simp [setMetric]) hps1 hps2)
    · exact normMetric_insert_mono _ pre post _ _ _ _ (by simpa [setMetric] using hv) hdte1 hdte2

theorem C10_composite_monotone_witness :
    compositeScore ([] ++ setMetric Metric.ps 1 (mkRow "A" "U" 1) :: [mkRow "B" "U" 0])
      (setMetric Metric.ps 1 (mkRow "A" "U" 1)) = some 1 ∧
    compositeScore ([] ++ setMetric Metric.ps 2 (mkRow "A" "U" 1) :: [mkRow "B" "U" 0])
      (setMetric Metric.ps 2 (mkRow "A" "U" 1)) = some 1 ∧
    (1:ℚ) ≤ 1 := by
  have hc1 : compositeScore ([] ++ setMetric Metric.ps 1 (mkRow "A" "U" 1) ::
      [mkRow "B" "U" 0]) (setMetric Metric.ps 1 (mkRow "A" "U" 1)) = some 1 := by
    norm_num [compositeScore, valueScore, qualityScore, momentumScore, volatilityScore,
      normMetric, normVal, setMetric, mkRow, colMin, colMax, oAdd, oSMul, min_def, max_def]
  have hc2 : compositeScore ([] ++ setMetric Metric.ps 2 (mkRow "A" "U" 1) ::
      [mkRow "B" "U" 0]) (setMetric Metric.ps 2 (mkRow "A" "U" 1)) = some 1 := by
    norm_num [compositeScore, valueScore, qualityScore, momentumScore, volatilityScore,
      normMetric, normVal, setMetric, mkRow, colMin, colMax, oAdd, oSMul, min_def, max_def]
  exact ⟨hc1, hc2, C10_composite_monotone Metric.ps [] [mkRow "B" "U" 0] (mkRow "A" "U" 1)
    1 2 1 1 (by norm_num) hc1 hc2⟩

end SRA
